import Mathlib

/-! Verification development for the BitcoinMiningLab mining core.

The Python sources are embedded at byte level: a byte string is a
`List Nat` whose entries are below 256, a hex string of even length is
identified with the byte string it denotes, and the external
double-SHA256 primitive (`hashlib`) is abstracted as a function
parameter `H : List Nat → List Nat`. Fallible Python code (raise) is
modelled with `Option`/`Except`. -/

/-- Little-endian numeric value of a byte list (first byte least significant). -/
def leNat : List Nat → Nat
  | [] => 0
  | b :: bs => b + 256 * leNat bs

/-- Big-endian numeric value of a byte list (first byte most significant). -/
def beNat : List Nat → Nat
  | [] => 0
  | b :: bs => b * 256 ^ bs.length + beNat bs

/-- Fixed-width little-endian byte encoding. On its defined domain
(value below 256^width) this is Python's `int.to_bytes(width, "little")`
and `struct.pack`; Python raises beyond that domain, while this model
keeps only the low-order bytes. -/
def toLE : Nat → Nat → List Nat
  | 0, _ => []
  | w + 1, v => v % 256 :: toLE w (v / 256)

/-- Fixed-width big-endian byte encoding, Python's `int.to_bytes(width, "big")`. -/
def toBE (w v : Nat) : List Nat := (toLE w v).reverse

theorem toLE_length (w v : Nat) : (toLE w v).length = w := by
  induction w generalizing v with
  | zero => rfl
  | succ w ih => simp [toLE, ih]

theorem toLE_lt (w v : Nat) : ∀ b ∈ toLE w v, b < 256 := by
  induction w generalizing v with
  | zero => simp [toLE]
  | succ w ih =>
    intro b hb
    simp only [toLE, List.mem_cons] at hb
    rcases hb with h | h
    · omega
    · exact ih _ _ h

theorem toLE_lt_of_mem (w v b : Nat) (hb : b ∈ toLE w v) : b < 256 := toLE_lt w v b hb

theorem leNat_toLE (w v : Nat) : leNat (toLE w v) = v % 256 ^ w := by
  induction w generalizing v with
  | zero => simp [toLE, leNat, Nat.mod_one]
  | succ w ih =>
    simp only [toLE, leNat, ih]
    rw [pow_succ', Nat.mod_mul]

/-! ## Difficulty codec (GetBlockTemplate/utils.py, StratumV1/test/utils.py) -/

/-- `decode_nbits` from GetBlockTemplate/utils.py (byte-identical copies in
RPC-Based/miner_opt.py and StratumV1/test/utils.py): the exponent is the top
byte of `nBits` and the significand is `nBits & 0x007fffff` (23 bits, the
compact sign bit masked away). For exponent below 3 the Python shift count
`8 * (exponent - 3)` is negative and `<<` raises ValueError, modelled as
`none`. The `:064x` hex rendering is not modelled; the numeric target is
returned directly. -/
def decode_nbits (nBits : Nat) : Option Nat :=
  let exponent := (nBits >>> 24) &&& 0xff
  let significand := nBits &&& 0x007fffff
  if exponent < 3 then none
  else some (significand <<< (8 * (exponent - 3)))

/-- The network maximum target constant `max_target` from `calculate_target`. -/
def networkMaxTarget : Nat :=
  0x00000000FFFF0000000000000000000000000000000000000000000000000000

/-- Python `int()` truncation toward zero of a rational. -/
def pyInt (q : ℚ) : Int := if 0 ≤ q then ⌊q⌋ else ⌈q⌉

/-- `calculate_target` from StratumV1/test/utils.py (the GetBlockTemplate
variant differs only in coercing the factor from configuration before this
computation; its `network` parameter is unused in the body). A factor of 0
returns the template's own decoded nBits target; otherwise the network
maximum target is divided by the factor, truncated with `int()`, and clamped
at `2^256 - 1`. Python performs the division in IEEE-754 double precision;
this model divides exactly in `ℚ`. The two agree at every factor for which
the double division of `max_target` is exact — in particular at the factors
0 and 1/2 used by the theorems below (`max_target` is `0xffff * 2^208`,
exactly representable, and division by 1/2 doubles the exponent part only).
Factors small enough to overflow the double pipeline are not modelled. -/
def calculate_target (bits : Nat) (difficulty_factor : ℚ) : Option Int :=
  match decode_nbits bits with
  | none => none
  | some original_target =>
    if difficulty_factor = 0 then some (original_target : Int)
    else
      let target_value := pyInt ((networkMaxTarget : ℚ) / difficulty_factor)
      let max_possible_target : Int := 2 ^ 256 - 1
      some (if max_possible_target < target_value then max_possible_target
            else target_value)

/-! ## BIP34 height encoding (GetBlockTemplate/block_builder.py,
MiningUtils/Coinbase/builder.py) -/

/-- The while loop of `tx_encode_coinbase_height`: minimal little-endian
bytes of a value, empty for 0. -/
def heightLEBytes (v : Nat) : List Nat :=
  if h : v = 0 then []
  else v % 256 :: heightLEBytes (v / 256)
termination_by v
decreasing_by exact Nat.div_lt_self (Nat.pos_of_ne_zero h) (by norm_num)

/-- `tx_encode_coinbase_height` from GetBlockTemplate/block_builder.py
(byte-identical copy in MiningUtils/Coinbase/builder.py), at byte level:
height 0 encodes as the single byte 0x00 (length byte 0, empty payload);
a positive height encodes as its minimal little-endian bytes, with one
0x00 byte appended when the top bit of the last byte is set, preceded by
the payload byte count. Negative heights raise in Python; the domain here
is `Nat`. -/
def tx_encode_coinbase_height (height : Nat) : List Nat :=
  if height = 0 then [0x00]
  else
    let base := heightLEBytes height
    let payload := if base ≠ [] ∧ base.getLastD 0 &&& 0x80 ≠ 0
                   then base ++ [0x00] else base
    payload.length :: payload

/-- Modelled from the spec: no height decoder exists under src/ (only the
encoder does). Spec section 8 demands `decodeHeight(encodeHeight(h)) == h`
where the encoding is "the minimal-byte little-endian form of h, with one
extra 0x00 byte appended when the top bit of the last byte is set, preceded
by its length byte"; the decoder therefore drops the length byte and reads
the remaining payload as a little-endian integer. -/
def decodeHeight (bs : List Nat) : Nat := leNat bs.tail

theorem leNat_append_zero (bs : List Nat) : leNat (bs ++ [0]) = leNat bs := by
  induction bs with
  | nil => simp [leNat]
  | cons b bs ih => simp [leNat, ih]

theorem leNat_heightLEBytes (v : Nat) : leNat (heightLEBytes v) = v := by
  induction v using Nat.strong_induction_on with
  | _ v ih =>
    rw [heightLEBytes]
    by_cases h : v = 0
    · simp [h, leNat]
    · rw [dif_neg h]
      have hlt : v / 256 < v := Nat.div_lt_self (Nat.pos_of_ne_zero h) (by norm_num)
      simp only [leNat, ih _ hlt]
      omega

/-- C6: for every height h ≥ 0, decoding the BIP34 coinbase-height encoding
produced by `tx_encode_coinbase_height` yields h back, and height 0 encodes
as the single zero byte. -/
theorem encode_height_roundtrip :
    (∀ h : Nat, decodeHeight (tx_encode_coinbase_height h) = h) ∧
    tx_encode_coinbase_height 0 = [0x00] := by
  refine ⟨fun h => ?_, rfl⟩
  by_cases h0 : h = 0
  · simp [h0, tx_encode_coinbase_height, decodeHeight, leNat]
  · simp only [tx_encode_coinbase_height, if_neg h0, decodeHeight, List.tail_cons]
    by_cases hpad : heightLEBytes h ≠ [] ∧ (heightLEBytes h).getLastD 0 &&& 0x80 ≠ 0
    · simp only [if_pos hpad]
      rw [leNat_append_zero, leNat_heightLEBytes]
    · simp only [if_neg hpad]
      exact leNat_heightLEBytes h

/-- C3 counterexample: on the compact value 0x03800000 (sign bit of the
significand set) the code yields target 0, not the value the full 24-bit
mask would give (0x800000): the decoder masks with 0x7fffff, not 0xffffff. -/
theorem decode_nbits_sign_bit_counterexample :
    decode_nbits 0x03800000 ≠
      some ((0x03800000 &&& 0xffffff) <<<
        (8 * (((0x03800000 >>> 24) &&& 0xff) - 3))) ∧
    decode_nbits 0x03800000 = some 0 := by
  constructor
  · decide
  · decide

/-- C3 amended: for every 32-bit compact value whose exponent byte is at
least 3, `decode_nbits` equals the 23-bit significand `bits & 0x7fffff`
(the compact sign bit masked off, not the full 24-bit field) shifted left
by 8 * (exponent - 3) bits; for an exponent below 3 the decoder raises. -/
theorem decode_nbits_amended (n : Nat) (h3 : 3 ≤ (n >>> 24) &&& 0xff) :
    decode_nbits n =
      some ((n &&& 0x7fffff) <<< (8 * (((n >>> 24) &&& 0xff) - 3))) := by
  unfold decode_nbits
  rw [if_neg (by omega)]

theorem decode_nbits_amended_witness :
    3 ≤ (0x1d00ffff >>> 24) &&& 0xff ∧
    decode_nbits 0x1d00ffff =
      some ((0x1d00ffff &&& 0x7fffff) <<<
        (8 * (((0x1d00ffff >>> 24) &&& 0xff) - 3))) :=
  ⟨by decide, decode_nbits_amended 0x1d00ffff (by decide)⟩

/-- C2 counterexample: difficulty factor 0 is not rejected as an input
error — `calculate_target` returns the template's decoded target (here the
network maximum target, from compact bits 0x1d00ffff). -/
theorem calculate_target_zero_factor_counterexample :
    calculate_target 0x1d00ffff 0 = some (networkMaxTarget : Int) ∧
    calculate_target 0x1d00ffff 0 ≠ none := by
  constructor
  · decide
  · decide

/-- C2 amended: `calculate_target` rejects no factor: factor 0 returns the
template's decoded nBits target unchanged, and factor 1/2 applied to the
network maximum target yields exactly twice the network maximum target,
which lies strictly below the 2^256 - 1 cap, so no saturation occurs. -/
theorem calculate_target_amended (bits : Nat) (t : Nat)
    (hd : decode_nbits bits = some t) :
    calculate_target bits 0 = some (t : Int) ∧
    calculate_target bits (1 / 2 : ℚ) = some (2 * (networkMaxTarget : Int)) ∧
    2 * (networkMaxTarget : Int) < 2 ^ 256 - 1 := by
  have hq : (networkMaxTarget : ℚ) / (1 / 2 : ℚ) = ((2 * networkMaxTarget : Int) : ℚ) := by
    push_cast
    ring
  have hpy : pyInt ((networkMaxTarget : ℚ) / (1 / 2 : ℚ)) = 2 * (networkMaxTarget : Int) := by
    rw [hq]
    unfold pyInt
    rw [if_pos (by positivity), Int.floor_intCast]
  refine ⟨?_, ?_, by norm_num [networkMaxTarget]⟩
  · simp [calculate_target, hd]
  · simp only [calculate_target, hd]
    rw [if_neg (show (1 / 2 : ℚ) ≠ 0 by norm_num)]
    simp only [hpy]
    rw [if_neg (by norm_num [networkMaxTarget])]

theorem calculate_target_amended_witness :
    decode_nbits 0x1d00ffff = some networkMaxTarget ∧
    calculate_target 0x1d00ffff 0 = some (networkMaxTarget : Int) :=
  ⟨by decide, (calculate_target_amended 0x1d00ffff networkMaxTarget (by decide)).1⟩

/-! ## Coinbase splitting (StratumV1/test/utils.py) -/

/-- Python str.lower restricted to ASCII, which is all that hex text uses. -/
def pyLower (c : Nat) : Nat := if 65 ≤ c ∧ c ≤ 90 then c + 32 else c

/-- Python str.find: index of the leftmost occurrence of pat, none if absent. -/
def strFind (pat : List Nat) : List Nat → Option Nat
  | [] => if pat.isPrefixOf ([] : List Nat) then some 0 else none
  | c :: rest =>
    if pat.isPrefixOf (c :: rest) then some 0
    else (strFind pat rest).map (· + 1)

/-- Number of indices at which pat occurs as a contiguous run. -/
def countSub (pat : List Nat) : List Nat → Nat
  | [] => if pat.isPrefixOf ([] : List Nat) then 1 else 0
  | c :: rest => (if pat.isPrefixOf (c :: rest) then 1 else 0) + countSub pat rest

/-- `split_coinbase` from StratumV1/test/utils.py, over hex strings modelled
as lists of character codes (the Python function searches and slices the hex
text itself, so this keeps its character granularity). All three strings are
lowercased, the leftmost occurrence of extranonce1 is located with str.find,
extranonce2 is checked to follow immediately, and the four slices are
returned; otherwise ValueError, modelled as the error case. -/
def split_coinbase (coinbase_hex ex1 ex2 : List Nat) :
    Except String (List Nat × List Nat × List Nat × List Nat) :=
  let h := coinbase_hex.map pyLower
  let e1 := ex1.map pyLower
  let e2 := ex2.map pyLower
  match strFind e1 h with
  | none => .error "extranonce1 non trovato nella coinbase"
  | some idx1 =>
    let idx2 := idx1 + e1.length
    if (h.drop idx2).take e2.length = e2 then
      .ok (h.take idx1, (h.drop idx1).take e1.length,
           (h.drop idx2).take e2.length, h.drop (idx2 + e2.length))
    else .error "extranonce2 non segue immediatamente extranonce1"

theorem take_drop_split (h : List Nat) (i a b : Nat) :
    h.take i ++ ((h.drop i).take a ++
      ((h.drop (i + a)).take b ++ h.drop (i + a + b))) = h := by
  have hia : (h.drop i).drop a = h.drop (i + a) := by
    rw [List.drop_drop, Nat.add_comm]
  have hiab : (h.drop (i + a)).drop b = h.drop (i + a + b) := by
    rw [List.drop_drop, Nat.add_comm]
  conv_rhs => rw [← List.take_append_drop i h]
  congr 1
  conv_rhs => rw [← List.take_append_drop a (h.drop i)]
  congr 1
  rw [hia]
  conv_rhs => rw [← List.take_append_drop b (h.drop (i + a))]
  rw [hiab]

/-- C5 counterexample: in the coinbase text "aaccaabb" (character codes below)
with extranonce1 = "aa" and extranonce2 = "bb", the run extranonce1
extranonce2 occurs exactly once contiguously (at index 4), yet
`split_coinbase` fails: str.find stops at the first occurrence of
extranonce1 alone (index 0), which "bb" does not follow. -/
theorem split_coinbase_unique_occurrence_counterexample :
    countSub ([97, 97] ++ [98, 98]) [97, 97, 99, 99, 97, 97, 98, 98] = 1 ∧
    split_coinbase [97, 97, 99, 99, 97, 97, 98, 98] [97, 97] [98, 98] =
      .error "extranonce2 non segue immediatamente extranonce1" := by
  exact ⟨rfl, rfl⟩

/-- C5 amended: whenever `split_coinbase` succeeds, the concatenation
coinb1 + extranonce1 + extranonce2 + coinb2 reproduces the lowercased
coinbase text exactly; it fails with a data-integrity error when the
lowercased extranonce1 does not occur at all, or when extranonce2 does not
immediately follow the FIRST occurrence of extranonce1 (even if the pair
occurs contiguously later in the text). -/
theorem split_coinbase_amended (cb ex1 ex2 : List Nat) :
    (∀ q, split_coinbase cb ex1 ex2 = .ok q →
        q.1 ++ q.2.1 ++ q.2.2.1 ++ q.2.2.2 = cb.map pyLower) ∧
    (strFind (ex1.map pyLower) (cb.map pyLower) = none →
        split_coinbase cb ex1 ex2 =
          .error "extranonce1 non trovato nella coinbase") ∧
    (∀ i, strFind (ex1.map pyLower) (cb.map pyLower) = some i →
        ((cb.map pyLower).drop (i + ex1.length)).take ex2.length ≠
          ex2.map pyLower →
        split_coinbase cb ex1 ex2 =
          .error "extranonce2 non segue immediatamente extranonce1") := by
  refine ⟨?_, ?_, ?_⟩
  · intro q hq
    simp only [split_coinbase] at hq
    split at hq
    · exact absurd hq (by simp)
    · split at hq
      · cases hq
        simp only [List.append_assoc]
        exact take_drop_split (cb.map pyLower) _ (ex1.map pyLower).length
          (ex2.map pyLower).length
      · exact absurd hq (by simp)
  · intro hfind
    simp only [split_coinbase]
    split
    · rfl
    · rename_i idx1 heq
      rw [hfind] at heq
      exact absurd heq (by simp)
  · intro i hfind hfollow
    simp only [split_coinbase]
    split
    · rename_i heq
      rw [hfind] at heq
      exact absurd heq (by simp)
    · rename_i idx1 heq
      rw [hfind] at heq
      injection heq with hidx
      subst hidx
      rw [if_neg (by simpa [List.length_map] using hfollow)]

theorem split_coinbase_amended_witness :
    split_coinbase [97, 98] [97] [98] = .ok ([], [97], [98], []) ∧
    ([] : List Nat) ++ [97] ++ [98] ++ [] = ([97, 98] : List Nat).map pyLower :=
  ⟨rfl, (split_coinbase_amended [97, 98] [97] [98]).1 ([], [97], [98], []) rfl⟩

/-! ## Merkle engine (MiningUtils/MerkleBranch/merkle_branch.py) -/

/-- Odd-length padding: duplicate the last node, as every level of the
Python tree loops does before pairing. -/
def padEven (xs : List (List Nat)) : List (List Nat) :=
  if xs.length % 2 = 1 then xs ++ [xs.getLastD []] else xs

/-- Pair adjacent nodes of a level, double-hashing each concatenated pair:
the inner for loop of the Python tree builders. The levels it receives are
always padded to even length first. -/
def pairJoin (H : List Nat → List Nat) : List (List Nat) → List (List Nat)
  | x :: y :: rest => H (x ++ y) :: pairJoin H rest
  | _ => []

/-- One level of the tree loop: pad to even length, then pair up. -/
def levelStep (H : List Nat → List Nat) (xs : List (List Nat)) : List (List Nat) :=
  pairJoin H (padEven xs)

theorem pairJoin_length (H : List Nat → List Nat) :
    ∀ xs : List (List Nat), (pairJoin H xs).length = xs.length / 2
  | [] => by simp [pairJoin]
  | [x] => by simp [pairJoin]
  | x :: y :: rest => by
    simp only [pairJoin, List.length_cons, pairJoin_length H rest]
    omega

theorem padEven_length (xs : List (List Nat)) :
    (padEven xs).length = xs.length + xs.length % 2 := by
  unfold padEven
  split <;> simp <;> omega

theorem padEven_even (xs : List (List Nat)) : (padEven xs).length % 2 = 0 := by
  rw [padEven_length]
  omega

theorem padEven_le (xs : List (List Nat)) : xs.length ≤ (padEven xs).length := by
  rw [padEven_length]
  omega

theorem levelStep_length (H : List Nat → List Nat) (xs : List (List Nat)) :
    (levelStep H xs).length = (padEven xs).length / 2 := by
  unfold levelStep
  exact pairJoin_length H (padEven xs)

theorem levelStep_lt (H : List Nat → List Nat) (xs : List (List Nat))
    (h2 : 2 ≤ xs.length) : (levelStep H xs).length < xs.length := by
  rw [levelStep_length, padEven_length]
  omega

/-- The while loop of compute_merkle_root in internal (reversed) byte order:
fold levels until at most one node survives. On the empty list Python
raises IndexError at the final indexing; the model returns the empty byte
list there. -/
def merkleRootLevels (H : List Nat → List Nat) (xs : List (List Nat)) : List Nat :=
  if h : xs.length ≤ 1 then xs.headD []
  else merkleRootLevels H (levelStep H xs)
termination_by xs.length
decreasing_by exact levelStep_lt H xs (by omega)

/-- The sibling index used by merkle_branch: the right neighbour for an even
tracked index, the left neighbour for an odd one. -/
def siblingIndex (index : Nat) : Nat :=
  if index % 2 = 0 then index + 1 else index - 1

/-- The sibling hashes recorded at one level by merkle_branch's inner pair
loop: exactly one entry — the sibling of the tracked index in the padded
level — when the tracked index lies inside the level, none otherwise. -/
def siblingAt (xs : List (List Nat)) (index : Nat) : List (List Nat) :=
  if index < xs.length then [xs.getD (siblingIndex index) []] else []

/-- merkle_branch's level loop in internal byte order: record the sibling of
the tracked index, pair the level up, halve the index, until one node is
left. -/
def merkleBranchLevels (H : List Nat → List Nat) (xs : List (List Nat))
    (index : Nat) : List (List Nat) :=
  if h : xs.length ≤ 1 then []
  else siblingAt (padEven xs) index ++
    merkleBranchLevels H (levelStep H xs) (index / 2)
termination_by xs.length
decreasing_by exact levelStep_lt H xs (by omega)

/-- `merkle_branch` from MiningUtils/MerkleBranch/merkle_branch.py: the
txids arrive in display order and are byte-reversed into internal order;
each recorded sibling is reversed back to display order. -/
def merkle_branch (H : List Nat → List Nat) (txids : List (List Nat))
    (index : Nat) : List (List Nat) :=
  (merkleBranchLevels H (txids.map List.reverse) index).map List.reverse

/-- `compute_merkle_root` from the same module: reverse the leaves into
internal order, fold the levels, reverse the surviving root back to display
order. -/
def compute_merkle_root (H : List Nat → List Nat)
    (txids : List (List Nat)) : List Nat :=
  (merkleRootLevels H (txids.map List.reverse)).reverse

/-- The recombination rule of spec section 4.4: hash (current ++ sibling)
when the running index is even and (sibling ++ current) when it is odd,
halving the index at each level. -/
def foldBranch (H : List Nat → List Nat) (leaf : List Nat) :
    List (List Nat) → Nat → List Nat
  | [], _ => leaf
  | s :: rest, index =>
    foldBranch H (if index % 2 = 0 then H (leaf ++ s) else H (s ++ leaf))
      rest (index / 2)

theorem padEven_getD (xs : List (List Nat)) (i : Nat) (hi : i < xs.length) :
    (padEven xs).getD i [] = xs.getD i [] := by
  unfold padEven
  split
  · exact List.getD_append _ _ _ _ hi
  · rfl

theorem pairJoin_getD (H : List Nat → List Nat) :
    ∀ (xs : List (List Nat)) (j : Nat), xs.length % 2 = 0 →
      2 * j + 1 < xs.length →
      (pairJoin H xs).getD j [] =
        H (xs.getD (2 * j) [] ++ xs.getD (2 * j + 1) [])
  | [], j, _, hj => by simp at hj
  | [x], j, he, _ => by simp at he
  | x :: y :: rest, 0, _, _ => by simp [pairJoin]
  | x :: y :: rest, j + 1, he, hj => by
    have he2 : rest.length % 2 = 0 := by
      simp only [List.length_cons] at he
      omega
    have hj2 : 2 * j + 1 < rest.length := by
      simp only [List.length_cons] at hj
      omega
    have hrec := pairJoin_getD H rest j he2 hj2
    simp only [pairJoin]
    have e1 : 2 * (j + 1) = 2 * j + 1 + 1 := by omega
    have e2 : 2 * (j + 1) + 1 = 2 * j + 1 + 1 + 1 := by omega
    rw [e2, e1]
    simpa [List.getD_cons_succ] using hrec

theorem foldRecombine (H : List Nat → List Nat) (xs : List (List Nat))
    (index : Nat) (hi : index < xs.length) :
    foldBranch H (xs.getD index []) (merkleBranchLevels H xs index) index =
      merkleRootLevels H xs := by
  by_cases h1 : xs.length ≤ 1
  · rw [merkleBranchLevels, dif_pos h1, merkleRootLevels, dif_pos h1]
    match xs, hi with
    | x :: t, hi =>
      have ht : t.length = 0 := by
        simp only [List.length_cons] at h1
        omega
      have hi0 : index = 0 := by
        simp only [List.length_cons, ht] at hi
        omega
      subst hi0
      simp [foldBranch]
  · push_neg at h1
    rw [merkleBranchLevels, dif_neg (by omega), merkleRootLevels, dif_neg (by omega)]
    have hip : index < (padEven xs).length := lt_of_lt_of_le hi (padEven_le xs)
    have hpe : (padEven xs).length % 2 = 0 := padEven_even xs
    rw [siblingAt, if_pos hip]
    simp only [List.singleton_append, foldBranch]
    have hleaf : xs.getD index [] = (padEven xs).getD index [] :=
      (padEven_getD xs index hi).symm
    have hnext :
        (if index % 2 = 0 then
            H (xs.getD index [] ++ (padEven xs).getD (siblingIndex index) [])
          else H ((padEven xs).getD (siblingIndex index) [] ++ xs.getD index [])) =
          (levelStep H xs).getD (index / 2) [] := by
      unfold levelStep
      by_cases hpar : index % 2 = 0
      · have hb : 2 * (index / 2) + 1 < (padEven xs).length := by omega
        rw [if_pos hpar, pairJoin_getD H (padEven xs) (index / 2) hpe hb]
        have e1 : 2 * (index / 2) = index := by omega
        have e2 : 2 * (index / 2) + 1 = siblingIndex index := by
          unfold siblingIndex
          rw [if_pos hpar]
          omega
        rw [e2, e1, hleaf]
      · have hb : 2 * (index / 2) + 1 < (padEven xs).length := by omega
        rw [if_neg hpar, pairJoin_getD H (padEven xs) (index / 2) hpe hb]
        have e1 : 2 * (index / 2) = siblingIndex index := by
          unfold siblingIndex
          rw [if_neg hpar]
          omega
        have e2 : 2 * (index / 2) + 1 = index := by omega
        rw [e2, e1, hleaf]
    rw [hnext]
    have hi2 : index / 2 < (levelStep H xs).length := by
      rw [levelStep_length]
      omega
    exact foldRecombine H (levelStep H xs) (index / 2) hi2
termination_by xs.length
decreasing_by exact levelStep_lt H xs (by omega)

theorem getD_map_reverse (l : List (List Nat)) (i : Nat) (hi : i < l.length) :
    (l.map List.reverse).getD i [] = (l.getD i []).reverse := by
  induction l generalizing i with
  | nil => simp at hi
  | cons x t ih =>
    cases i with
    | zero => simp
    | succ j =>
      simp only [List.map_cons, List.getD_cons_succ]
      exact ih j (by simpa using Nat.lt_of_succ_lt_succ hi)

/-- C4: for every non-empty display-order leaf list and every valid leaf
index, folding the byte-reversed leaf with the byte-reversed siblings that
merkle_branch produced — hashing (current ++ sibling) at an even running
index and (sibling ++ current) at an odd one, then halving the index —
reproduces compute_merkle_root exactly (in internal byte order; both sides
are display values reversed once). -/
theorem merkle_branch_recombines_root (H : List Nat → List Nat)
    (txids : List (List Nat)) (index : Nat)
    (hne : txids ≠ []) (hidx : index < txids.length) :
    foldBranch H (txids.getD index []).reverse
        ((merkle_branch H txids index).map List.reverse) index =
      (compute_merkle_root H txids).reverse := by
  unfold merkle_branch compute_merkle_root
  rw [List.map_map]
  have hmap : (txids.map List.reverse).length = txids.length := List.length_map _ _
  have hleaf : (txids.map List.reverse).getD index [] = (txids.getD index []).reverse :=
    getD_map_reverse txids index hidx
  have hcomp : (List.reverse ∘ List.reverse) = (id : List Nat → List Nat) := by
    funext l
    simp
  rw [hcomp, List.map_id, List.reverse_reverse, ← hleaf]
  exact foldRecombine H (txids.map List.reverse) index (by omega)

theorem merkle_branch_recombines_root_witness :
    ([[1], [2]] : List (List Nat)) ≠ [] ∧ 0 < ([[1], [2]] : List (List Nat)).length ∧
    foldBranch (fun l => l) (([[1], [2]] : List (List Nat)).getD 0 []).reverse
        ((merkle_branch (fun l => l) [[1], [2]] 0).map List.reverse) 0 =
      (compute_merkle_root (fun l => l) [[1], [2]]).reverse :=
  ⟨by decide, by decide,
    merkle_branch_recombines_root (fun l => l) [[1], [2]] 0 (by decide) (by decide)⟩

/-! ## Coinbase builders (GetBlockTemplate/block_builder.py,
MiningUtils/Coinbase/builder.py) -/

/-- `encode_varint` from GetBlockTemplate/utils.py (byte-identical copy in
StratumV1/test/utils.py): a value up to and including 0xfd encodes as one
bare byte (the source compares with <=, so 0xfd itself gets no prefix);
larger values get a 0xfd/0xfe/0xff prefix and a 2/4/8-byte little-endian
payload; values beyond 2^64 - 1 raise ValueError. -/
def encode_varint (v : Nat) : Except String (List Nat) :=
  if v ≤ 0xfd then .ok [v]
  else if v ≤ 0xffff then .ok (0xfd :: toLE 2 v)
  else if v ≤ 0xffffffff then .ok (0xfe :: toLE 4 v)
  else if v ≤ 0xffffffffffffffff then .ok (0xff :: toLE 8 v)
  else .error "Il valore supera il limite massimo per VarInt"

/-- The template fields the coinbase builders read. The witness commitment
field is `template.get("default_witness_commitment")`: absent key, or
present with an empty value. -/
structure BlockTemplate where
  height : Nat
  coinbasevalue : Nat
  version : Nat
  default_witness_commitment : Option (List Nat)

/-- The witness-commitment bytes, empty when the key is absent. -/
def wcBytes (t : BlockTemplate) : List Nat :=
  t.default_witness_commitment.getD []

/-- Python truthiness of the commitment value, `segwit = bool(wc_raw)`:
false for a missing key and for an empty value. -/
def segwitFlag (t : BlockTemplate) : Bool := !(wcBytes t).isEmpty

/-- The commitment script: the raw value when it already starts with
OP_RETURN (0x6a), otherwise the fixed commitment header is prepended. -/
def wcScript (wc : List Nat) : List Nat :=
  if wc.headD 0 = 0x6a then wc
  else [0x6a, 0x24, 0xaa, 0x21, 0xa9, 0xed] ++ wc

/-- The payout output: 8-byte little-endian reward, script length varint,
script bytes. Both builders construct it identically. -/
def minerOutput (reward : Nat) (spk : List Nat) : Except String (List Nat) :=
  match encode_varint spk.length with
  | .ok vi => .ok (toLE 8 reward ++ vi ++ spk)
  | .error e => .error e

/-- The zero-value witness-commitment output: 8 zero value bytes, script
length varint, commitment script. -/
def wcOutput (wc : List Nat) : Except String (List Nat) :=
  match encode_varint (wcScript wc).length with
  | .ok vi => .ok (List.replicate 8 0 ++ vi ++ wcScript wc)
  | .error e => .error e

/-- The output list of either builder: the payout output, then — only when
the template signals segwit — the commitment output. -/
def buildOutputs (t : BlockTemplate) (spk : List Nat) :
    Except String (List (List Nat)) :=
  match minerOutput t.coinbasevalue spk with
  | .error e => .error e
  | .ok mo =>
    if segwitFlag t then
      match wcOutput (wcBytes t) with
      | .ok w => .ok [mo, w]
      | .error e => .error e
    else .ok [mo]

namespace MU

/-- The scriptSig assembled by MiningUtils/Coinbase/builder.py in the
ckpool-compatible layout: height push, OP_0, 4-byte ntime push, 4-byte
bits push, one length byte for the joined extranonces, extranonce1,
extranonce2, the 6-byte pool tag push, and an optional message push
(skipped for a missing or empty message, matching Python truthiness). -/
def scriptSig (height ntime bits : Nat) (ex1 ex2 : List Nat)
    (msg : Option (List Nat)) : List Nat :=
  tx_encode_coinbase_height height ++ [0x00] ++
  (0x04 :: toLE 4 ntime) ++ (0x04 :: toLE 4 bits) ++
  [ex1.length + ex2.length] ++ ex1 ++ ex2 ++
  (0x0a :: [0x63, 0x6b, 0x70, 0x6f, 0x6f, 0x6c]) ++
  (match msg with
   | some m => if m.isEmpty then [] else m.length :: m
   | none => [])

/-- `build_coinbase_transaction` from MiningUtils/Coinbase/builder.py, with
the double-SHA256 primitive as parameter H. Returns the full wire bytes,
the legacy txid and the witness id, both ids byte-reversed into display
order as the source does. The legacy id hashes the `core` obtained by the
source's hex-string slicing: marker and flag dropped after the fixed
version, the 34 witness bytes cut off in front of the 4 lock-time bytes. -/
def build_coinbase_transaction (H : List Nat → List Nat) (t : BlockTemplate)
    (spk ex1 ex2 : List Nat) (ntime bits : Nat) (msg : Option (List Nat)) :
    Except String (List Nat × List Nat × List Nat) :=
  let segwit := segwitFlag t
  let tx_version : List Nat := [0x01, 0x00, 0x00, 0x00]
  let script_sig := scriptSig t.height ntime bits ex1 ex2 msg
  if 100 < script_sig.length then .error "scriptSig > 100 byte"
  else
    match encode_varint script_sig.length with
    | .error e => .error e
    | .ok ssvi =>
      match buildOutputs t spk with
      | .error e => .error e
      | .ok outs =>
        match encode_varint outs.length with
        | .error e => .error e
        | .ok ovi =>
          let inputPart := [0x01] ++ List.replicate 32 0 ++
            List.replicate 4 0xff ++ ssvi ++ script_sig ++ List.replicate 4 0xff
          let middle := inputPart ++ ovi ++ outs.flatten
          let coinbase := tx_version ++
            (if segwit then [0x00, 0x01] else []) ++ middle ++
            (if segwit then [0x01, 0x20] ++ List.replicate 32 0 else []) ++
            [0x00, 0x00, 0x00, 0x00]
          let core := if segwit then
              let c := tx_version ++ coinbase.drop 6
              let body := c.take (c.length - 4)
              body.take (body.length - 34) ++ c.drop (c.length - 4)
            else coinbase
          .ok (coinbase, (H core).reverse, (H coinbase).reverse)

end MU

theorem strip_core (txv mf middle wit lock c body : List Nat)
    (htxv : txv.length = 4) (hmf : mf.length = 2) (hwit : wit.length = 34)
    (hlock : lock.length = 4)
    (hc : c = txv ++ (txv ++ mf ++ middle ++ wit ++ lock).drop 6)
    (hbody : body = c.take (c.length - 4)) :
    body.take (body.length - 34) ++ c.drop (c.length - 4) =
      txv ++ middle ++ lock := by
  have h1 : txv ++ mf ++ middle ++ wit ++ lock =
      (txv ++ mf) ++ (middle ++ wit ++ lock) := by
    simp [List.append_assoc]
  have hdrop : (txv ++ mf ++ middle ++ wit ++ lock).drop 6 =
      middle ++ wit ++ lock := by
    rw [h1]
    exact List.drop_left' (by simp [htxv, hmf])
  have hc2 : c = ((txv ++ middle) ++ wit) ++ lock := by
    rw [hc, hdrop]
    simp [List.append_assoc]
  have hclen : c.length - 4 = ((txv ++ middle) ++ wit).length := by
    rw [hc2]
    simp only [List.length_append]
    omega
  have hlock2 : c.drop (c.length - 4) = lock := by
    rw [hclen, hc2, List.drop_left]
  have hbody2 : body = (txv ++ middle) ++ wit := by
    rw [hbody, hclen, hc2, List.take_left]
  have hblen : body.length - 34 = (txv ++ middle).length := by
    rw [hbody2]
    simp only [List.length_append]
    omega
  have hstrip : body.take (body.length - 34) = txv ++ middle := by
    rw [hblen, hbody2, List.take_left]
  rw [hstrip, hlock2]

namespace GBT

/-- The scriptSig assembled by GetBlockTemplate/block_builder.py: height
push, an optional message push (OP_RETURN byte, length byte, message —
skipped for a missing or empty message, matching Python truthiness), then
extranonce1 and extranonce2. -/
def scriptSig (height : Nat) (msg : Option (List Nat)) (ex1 ex2 : List Nat) :
    List Nat :=
  tx_encode_coinbase_height height ++
  (match msg with
   | some m => if m.isEmpty then [] else 0x6a :: m.length :: m
   | none => []) ++ ex1 ++ ex2

/-- `build_coinbase_transaction` from GetBlockTemplate/block_builder.py,
with the double-SHA256 primitive as parameter H. Differs from the
MiningUtils variant in the scriptSig layout, in using the template version
for the transaction version, and in returning only the wire bytes and the
legacy txid. -/
def build_coinbase_transaction (H : List Nat → List Nat) (t : BlockTemplate)
    (spk ex1 ex2 : List Nat) (msg : Option (List Nat)) :
    Except String (List Nat × List Nat) :=
  let segwit := segwitFlag t
  let tx_version := toLE 4 t.version
  let script_sig := scriptSig t.height msg ex1 ex2
  if 100 < script_sig.length then .error "scriptSig > 100 byte"
  else
    match encode_varint script_sig.length with
    | .error e => .error e
    | .ok ssvi =>
      match buildOutputs t spk with
      | .error e => .error e
      | .ok outs =>
        match encode_varint outs.length with
        | .error e => .error e
        | .ok ovi =>
          let inputPart := [0x01] ++ List.replicate 32 0 ++
            List.replicate 4 0xff ++ ssvi ++ script_sig ++ List.replicate 4 0xff
          let middle := inputPart ++ ovi ++ outs.flatten
          let coinbase := tx_version ++
            (if segwit then [0x00, 0x01] else []) ++ middle ++
            (if segwit then [0x01, 0x20] ++ List.replicate 32 0 else []) ++
            [0x00, 0x00, 0x00, 0x00]
          let core := if segwit then
              let c := tx_version ++ coinbase.drop 6
              let body := c.take (c.length - 4)
              body.take (body.length - 34) ++ c.drop (c.length - 4)
            else coinbase
          .ok (coinbase, (H core).reverse)

end GBT

/-- C9: the coinbase builder fails with the length error, producing no
transaction, exactly when the assembled scriptSig (height encoding,
optional message push, extranonce bytes) exceeds 100 bytes; every
successful build has a scriptSig of at most 100 bytes. -/
theorem build_coinbase_scriptsig_bound (H : List Nat → List Nat)
    (t : BlockTemplate) (spk ex1 ex2 : List Nat) (msg : Option (List Nat)) :
    (100 < (GBT.scriptSig t.height msg ex1 ex2).length →
      GBT.build_coinbase_transaction H t spk ex1 ex2 msg =
        .error "scriptSig > 100 byte") ∧
    (∀ r, GBT.build_coinbase_transaction H t spk ex1 ex2 msg = .ok r →
      (GBT.scriptSig t.height msg ex1 ex2).length ≤ 100) := by
  constructor
  · intro hgt
    simp only [GBT.build_coinbase_transaction]
    rw [if_pos hgt]
  · intro r hr
    by_cases hgt : 100 < (GBT.scriptSig t.height msg ex1 ex2).length
    · simp only [GBT.build_coinbase_transaction] at hr
      rw [if_pos hgt] at hr
      exact absurd hr (by simp)
    · omega

theorem build_coinbase_scriptsig_bound_witness :
    100 < (GBT.scriptSig 0 none (List.replicate 101 0) []).length ∧
    GBT.build_coinbase_transaction (fun _ => []) ⟨0, 0, 0, none⟩
      [] (List.replicate 101 0) [] none = .error "scriptSig > 100 byte" := by
  have h1 : 100 < (GBT.scriptSig 0 none (List.replicate 101 0) []).length := by
    decide
  exact ⟨h1, (build_coinbase_scriptsig_bound (fun _ => []) ⟨0, 0, 0, none⟩
    [] (List.replicate 101 0) [] none).1 h1⟩

/-- C7: every successfully built MiningUtils coinbase carries the payout
output plus a zero-value witness-commitment output exactly when the
template signals segwit (and only the payout output otherwise); in the
segwit case the transaction is wrapped with marker and flag bytes 0x00
0x01 and a single 32-byte all-zero witness stack entry, its legacy id is
the double hash of the encoding with marker, flag and witness stack
stripped, and its witness id is the double hash of the full encoding
(both ids byte-reversed into display order). -/
theorem build_coinbase_segwit_structure (H : List Nat → List Nat)
    (t : BlockTemplate) (spk ex1 ex2 : List Nat) (ntime bits : Nat)
    (msg : Option (List Nat)) (full txid wtxid : List Nat)
    (hok : MU.build_coinbase_transaction H t spk ex1 ex2 ntime bits msg =
      .ok (full, txid, wtxid)) :
    (∃ outs, buildOutputs t spk = .ok outs ∧
      (segwitFlag t = true →
        ∃ mo w, minerOutput t.coinbasevalue spk = .ok mo ∧
          wcOutput (wcBytes t) = .ok w ∧ outs = [mo, w] ∧
          w.take 8 = List.replicate 8 0) ∧
      (segwitFlag t = false →
        ∃ mo, minerOutput t.coinbasevalue spk = .ok mo ∧ outs = [mo])) ∧
    (segwitFlag t = true →
      ∃ middle,
        full = [0x01, 0x00, 0x00, 0x00] ++ [0x00, 0x01] ++ middle ++
          ([0x01, 0x20] ++ List.replicate 32 0) ++ [0x00, 0x00, 0x00, 0x00] ∧
        txid = (H ([0x01, 0x00, 0x00, 0x00] ++ middle ++
          [0x00, 0x00, 0x00, 0x00])).reverse ∧
        wtxid = (H full).reverse) := by
  simp only [MU.build_coinbase_transaction] at hok
  split at hok
  · exact absurd hok (by simp)
  split at hok
  · exact absurd hok (by simp)
  rename_i ssvi hssvi
  split at hok
  · exact absurd hok (by simp)
  rename_i outs houts
  split at hok
  · exact absurd hok (by simp)
  rename_i ovi hovi
  simp only [Except.ok.injEq, Prod.mk.injEq] at hok
  obtain ⟨rfl, rfl, rfl⟩ := hok
  constructor
  · refine ⟨outs, houts, ?_, ?_⟩
    · intro hseg
      simp only [buildOutputs] at houts
      split at houts
      · exact absurd houts (by simp)
      rename_i mo hmo
      rw [hseg] at houts
      simp only [if_true] at houts
      split at houts
      · rename_i w hw
        simp only [Except.ok.injEq] at houts
        refine ⟨mo, w, hmo, hw, houts.symm, ?_⟩
        simp only [wcOutput] at hw
        split at hw
        · rename_i vi hvi
          simp only [Except.ok.injEq] at hw
          rw [← hw, List.append_assoc]
          exact List.take_left' (by simp)
        · exact absurd hw (by simp)
      · exact absurd houts (by simp)
    · intro hseg
      simp only [buildOutputs] at houts
      split at houts
      · exact absurd houts (by simp)
      rename_i mo hmo
      rw [hseg] at houts
      simp only [Bool.false_eq_true, if_false] at houts
      simp only [Except.ok.injEq] at houts
      exact ⟨mo, hmo, houts.symm⟩
  · intro hseg
    simp only [hseg, if_true]
    refine ⟨([0x01] ++ List.replicate 32 0 ++ List.replicate 4 0xff ++ ssvi ++
      MU.scriptSig t.height ntime bits ex1 ex2 msg ++ List.replicate 4 0xff) ++
      ovi ++ outs.flatten, rfl, ?_, trivial⟩
    have hcore := strip_core [0x01, 0x00, 0x00, 0x00] [0x00, 0x01]
      (([0x01] ++ List.replicate 32 0 ++ List.replicate 4 0xff ++ ssvi ++
        MU.scriptSig t.height ntime bits ex1 ex2 msg ++ List.replicate 4 0xff) ++
        ovi ++ outs.flatten)
      ([0x01, 0x20] ++ List.replicate 32 0) [0x00, 0x00, 0x00, 0x00] _ _
      rfl rfl (by simp) rfl rfl rfl
    rw [hcore]

/-- A concrete stand-in for the double-SHA256 primitive used by witnesses. -/
def c7hash : List Nat → List Nat := fun _ => []

/-- A concrete segwit-signalling template for the builder witness. -/
def c7tmpl : BlockTemplate := ⟨0, 0, 0, some [0x6a]⟩

/-- The concrete result of the builder witness run. -/
def c7res : List Nat × List Nat × List Nat :=
  match MU.build_coinbase_transaction c7hash c7tmpl [] [] [] 0 0 none with
  | .ok r => r
  | .error _ => ([], [], [])

theorem build_coinbase_segwit_structure_witness :
    MU.build_coinbase_transaction c7hash c7tmpl [] [] [] 0 0 none =
      .ok (c7res.1, c7res.2.1, c7res.2.2) ∧
    ((∃ outs, buildOutputs c7tmpl [] = .ok outs ∧
      (segwitFlag c7tmpl = true →
        ∃ mo w, minerOutput c7tmpl.coinbasevalue [] = .ok mo ∧
          wcOutput (wcBytes c7tmpl) = .ok w ∧ outs = [mo, w] ∧
          w.take 8 = List.replicate 8 0) ∧
      (segwitFlag c7tmpl = false →
        ∃ mo, minerOutput c7tmpl.coinbasevalue [] = .ok mo ∧ outs = [mo])) ∧
    (segwitFlag c7tmpl = true →
      ∃ middle,
        c7res.1 = [0x01, 0x00, 0x00, 0x00] ++ [0x00, 0x01] ++ middle ++
          ([0x01, 0x20] ++ List.replicate 32 0) ++ [0x00, 0x00, 0x00, 0x00] ∧
        c7res.2.1 = (c7hash ([0x01, 0x00, 0x00, 0x00] ++ middle ++
          [0x00, 0x00, 0x00, 0x00])).reverse ∧
        c7res.2.2 = (c7hash c7res.1).reverse)) :=
  ⟨rfl, build_coinbase_segwit_structure c7hash c7tmpl [] [] [] 0 0 none
    c7res.1 c7res.2.1 c7res.2.2 rfl⟩

/-! ## Proof-of-work search loop (RPC-Based/miner.py) -/

/-- Python bytes comparison, as in `digest[::-1] < target_be`: lexicographic,
with a strict prefix ordered first. -/
def bytesLt : List Nat → List Nat → Bool
  | [], [] => false
  | [], _ :: _ => true
  | _ :: _, [] => false
  | x :: xs, y :: ys =>
    if x < y then true
    else if y < x then false
    else bytesLt xs ys

/-- The three nonce generation policies of mine_block. -/
inductive NonceMode where
  | incremental
  | random
  | mixed

/-- The initial nonce of each policy: 0 for incremental, an externally drawn
32-bit random value for random and mixed. (miner.py draws randomness only
for the starting point; both random and mixed then increment batch by
batch.) -/
def initNonce : NonceMode → Nat → Nat
  | .incremental, _ => 0
  | .random, r0 => r0 % 0x100000000
  | .mixed, r0 => r0 % 0x100000000

/-- Outcome of a fuel-bounded evaluation of the search loop. The Python
loop runs unboundedly until a hit; the fuel only bounds how many batches
this model evaluates, so outOfFuel carries no Python counterpart. -/
inductive MineOutcome where
  | found (header : List Nat) (nonce : Nat)
  | outOfFuel

/-- The timestamp refresh applied at the top of a batch iteration:
`some ts` replaces the 4 timestamp bytes (offsets 68-72) of the 76-byte
prefix, as the interval-elapsed branch of miner.py does with the current
wall-clock time; `none` is the branch not taken (interval not elapsed or
TIMESTAMP_UPDATE_INTERVAL unset). -/
def applyRefresh (r : Option (List Nat)) (base76 : List Nat) : List Nat :=
  match r with
  | some ts => base76.take 68 ++ ts ++ base76.drop 72
  | none => base76

/-- The inner batch of mine_block: up to `count` candidates starting at
offset i from the batch base nonce; each candidate nonce is reduced to 32
bits, appended little-endian to the prefix, double-hashed, and accepted
when the reversed digest is lexicographically below the 32-byte big-endian
target, exactly the source's `digest[::-1] < target_be`. -/
def scanBatch (H : List Nat → List Nat) (base76 targetBE : List Nat)
    (nonce : Nat) : Nat → Nat → Option (List Nat × Nat)
  | 0, _ => none
  | count + 1, i =>
    let n := (nonce + i) &&& 0xFFFFFFFF
    let header := base76 ++ toLE 4 n
    if bytesLt (H header).reverse targetBE then some (header, n)
    else scanBatch H base76 targetBE nonce count (i + 1)

/-- The while loop of mine_block: refresh the timestamp, scan one batch of
8 candidates (BATCH = 8 in the source), and continue with the base nonce
advanced by 8 modulo 2^32. -/
def mineLoop (H : List Nat → List Nat) (refresh : Nat → Option (List Nat)) :
    List Nat → List Nat → Nat → Nat → Nat → MineOutcome
  | _, _, _, _, 0 => .outOfFuel
  | base76, targetBE, nonce, k, fuel + 1 =>
    let pre := applyRefresh (refresh k) base76
    match scanBatch H pre targetBE nonce 8 0 with
    | some (header, n) => .found header n
    | none => mineLoop H refresh pre targetBE
        ((nonce + 8) &&& 0xFFFFFFFF) (k + 1) fuel

/-- `mine_block` from RPC-Based/miner.py with the double-SHA256 primitive,
the wall-clock timestamp refreshes and the random draw as parameters: the
first 76 bytes of the decoded header are the hashing prefix, the target is
compared through its 32-byte big-endian encoding (`to_bytes(32, "big")`
demands target below 2^256), and the found case returns the completed
header bytes together with the winning nonce. The hashrate statistic and
the periodic logging are pure observability and are not modelled. -/
def mine_block (H : List Nat → List Nat) (refresh : Nat → Option (List Nat))
    (header80 : List Nat) (target : Nat) (mode : NonceMode) (r0 fuel : Nat) :
    MineOutcome :=
  mineLoop H refresh (header80.take 76) (toBE 32 target) (initNonce mode r0) 0 fuel

theorem beNat_append (xs ys : List Nat) :
    beNat (xs ++ ys) = beNat xs * 256 ^ ys.length + beNat ys := by
  induction xs with
  | nil => simp [beNat]
  | cons b bs ih =>
    have hl : (bs ++ ys).length = bs.length + ys.length := List.length_append bs ys
    calc beNat ((b :: bs) ++ ys)
        = b * 256 ^ (bs ++ ys).length + beNat (bs ++ ys) := rfl
      _ = b * 256 ^ (bs.length + ys.length) +
          (beNat bs * 256 ^ ys.length + beNat ys) := by rw [hl, ih]
      _ = (b * 256 ^ bs.length + beNat bs) * 256 ^ ys.length + beNat ys := by
          rw [pow_add]
          ring

theorem beNat_reverse (bs : List Nat) : beNat bs.reverse = leNat bs := by
  induction bs with
  | nil => rfl
  | cons b bs ih =>
    simp only [List.reverse_cons, beNat_append, ih, leNat, beNat]
    simp
    ring

theorem beNat_lt_pow (xs : List Nat) (hx : ∀ b ∈ xs, b < 256) :
    beNat xs < 256 ^ xs.length := by
  induction xs with
  | nil => simp [beNat]
  | cons b bs ih =>
    simp only [beNat, List.length_cons]
    have hb : b < 256 := hx b (by simp)
    have hr : beNat bs < 256 ^ bs.length := ih (fun c hc => hx c (by simp [hc]))
    have h2 : b * 256 ^ bs.length + beNat bs < (b + 1) * 256 ^ bs.length := by
      rw [add_mul, one_mul]
      exact Nat.add_lt_add_left hr _
    have h3 : (b + 1) * 256 ^ bs.length ≤ 256 * 256 ^ bs.length :=
      Nat.mul_le_mul_right _ (by omega)
    calc b * 256 ^ bs.length + beNat bs
        < (b + 1) * 256 ^ bs.length := h2
      _ ≤ 256 * 256 ^ bs.length := h3
      _ = 256 ^ (bs.length + 1) := by rw [pow_succ, mul_comm]

theorem bytesLt_iff_beNat (xs : List Nat) :
    ∀ ys : List Nat, xs.length = ys.length →
      (∀ b ∈ xs, b < 256) → (∀ b ∈ ys, b < 256) →
      (bytesLt xs ys = true ↔ beNat xs < beNat ys) := by
  induction xs with
  | nil =>
    intro ys hlen _ _
    match ys, hlen with
    | [], _ => simp [bytesLt, beNat]
  | cons x xs ih =>
    intro ys hlen hx hy
    match ys, hlen with
    | y :: ys, hlen =>
      have hlen2 : xs.length = ys.length := by
        simpa using hlen
      have hxv : x < 256 := hx x (by simp)
      have hx2 : ∀ b ∈ xs, b < 256 := fun b hb => hx b (by simp [hb])
      have hy2 : ∀ b ∈ ys, b < 256 := fun b hb => hy b (by simp [hb])
      have hxlt : beNat xs < 256 ^ xs.length := beNat_lt_pow xs hx2
      have hylt : beNat ys < 256 ^ ys.length := beNat_lt_pow ys hy2
      simp only [bytesLt, beNat, hlen2]
      by_cases hltxy : x < y
      · rw [if_pos hltxy]
        have : x * 256 ^ ys.length + beNat xs < y * 256 ^ ys.length + beNat ys := by
          have step : (x + 1) * 256 ^ ys.length ≤ y * 256 ^ ys.length :=
            Nat.mul_le_mul_right _ (by omega)
          calc x * 256 ^ ys.length + beNat xs
              < (x + 1) * 256 ^ ys.length := by
                rw [add_mul, one_mul]
                rw [hlen2] at hxlt
                exact Nat.add_lt_add_left hxlt _
            _ ≤ y * 256 ^ ys.length := step
            _ ≤ y * 256 ^ ys.length + beNat ys := Nat.le_add_right _ _
        simp [this]
      · rw [if_neg hltxy]
        by_cases hltyx : y < x
        · rw [if_pos hltyx]
          have : y * 256 ^ ys.length + beNat ys < x * 256 ^ ys.length + beNat xs := by
            have step : (y + 1) * 256 ^ ys.length ≤ x * 256 ^ ys.length :=
              Nat.mul_le_mul_right _ (by omega)
            calc y * 256 ^ ys.length + beNat ys
                < (y + 1) * 256 ^ ys.length := by
                  rw [add_mul, one_mul]
                  exact Nat.add_lt_add_left hylt _
              _ ≤ x * 256 ^ ys.length := step
              _ ≤ x * 256 ^ ys.length + beNat xs := Nat.le_add_right _ _
          constructor
          · intro hfalse
            exact absurd hfalse (by simp)
          · intro hcontra
            exact absurd hcontra (by omega)
        · have hxy : x = y := by omega
          subst hxy
          rw [if_neg hltyx]
          rw [ih ys hlen2 hx2 hy2]
          omega

theorem beNat_toBE (w v : Nat) (hv : v < 256 ^ w) : beNat (toBE w v) = v := by
  unfold toBE
  rw [beNat_reverse, leNat_toLE, Nat.mod_eq_of_lt hv]

theorem toBE_length (w v : Nat) : (toBE w v).length = w := by
  unfold toBE
  rw [List.length_reverse, toLE_length]

theorem toBE_lt (w v : Nat) : ∀ b ∈ toBE w v, b < 256 := by
  intro b hb
  unfold toBE at hb
  rw [List.mem_reverse] at hb
  exact toLE_lt w v b hb

theorem scanBatch_found (H : List Nat → List Nat) (base76 targetBE : List Nat)
    (nonce : Nat) :
    ∀ (count i : Nat) (hdr : List Nat) (n : Nat),
      scanBatch H base76 targetBE nonce count i = some (hdr, n) →
      bytesLt (H hdr).reverse targetBE = true := by
  intro count
  induction count with
  | zero => intro i hdr n h; simp [scanBatch] at h
  | succ c ih =>
    intro i hdr n h
    simp only [scanBatch] at h
    split at h
    · rename_i hcond
      simp only [Option.some.injEq, Prod.mk.injEq] at h
      obtain ⟨rfl, rfl⟩ := h
      exact hcond
    · exact ih (i + 1) hdr n h

theorem mineLoop_found (H : List Nat → List Nat)
    (refresh : Nat → Option (List Nat)) :
    ∀ (fuel : Nat) (base76 targetBE : List Nat) (nonce k : Nat)
      (hdr : List Nat) (n : Nat),
      mineLoop H refresh base76 targetBE nonce k fuel = .found hdr n →
      bytesLt (H hdr).reverse targetBE = true := by
  intro fuel
  induction fuel with
  | zero => intro _ _ _ _ _ _ h; simp [mineLoop] at h
  | succ f ih =>
    intro base76 targetBE nonce k hdr n h
    simp only [mineLoop] at h
    split at h
    · rename_i hdr2 n2 hp
      simp only [MineOutcome.found.injEq] at h
      obtain ⟨rfl, rfl⟩ := h
      exact scanBatch_found H _ targetBE nonce 8 0 _ _ hp
    · exact ih _ targetBE _ _ hdr n h

/-- C10: every solution the search loop returns satisfies the strict
inequality: the double hash of the returned header, read as a big-endian
256-bit integer in display order, is strictly below the target, so a
header whose hash equals the target exactly is never returned. (The
worker-side share search `mine` in StratumV1/test/test_miner.py accepts
hash equal to the target, matching the claim's contrast with share
acceptance.) -/
theorem mine_block_found_beats_target (H : List Nat → List Nat)
    (refresh : Nat → Option (List Nat)) (header80 : List Nat) (target : Nat)
    (mode : NonceMode) (r0 fuel : Nat) (hdr : List Nat) (n : Nat)
    (hH : ∀ x, (H x).length = 32 ∧ ∀ b ∈ H x, b < 256)
    (ht : target < 2 ^ 256)
    (hfound : mine_block H refresh header80 target mode r0 fuel =
      .found hdr n) :
    beNat (H hdr).reverse < target := by
  have hlt := mineLoop_found H refresh fuel (header80.take 76) (toBE 32 target)
    (initNonce mode r0) 0 hdr n hfound
  have ht' : target < 256 ^ 32 := by
    have : (256 : Nat) ^ 32 = 2 ^ 256 := by norm_num
    omega
  have hlen : (H hdr).reverse.length = (toBE 32 target).length := by
    rw [List.length_reverse, (hH hdr).1, toBE_length]
  have hdig : ∀ b ∈ (H hdr).reverse, b < 256 := by
    intro b hb
    rw [List.mem_reverse] at hb
    exact (hH hdr).2 b hb
  have := (bytesLt_iff_beNat (H hdr).reverse (toBE 32 target) hlen hdig
    (toBE_lt 32 target)).mp hlt
  rwa [beNat_toBE 32 target ht'] at this

/-- A concrete 32-byte constant digest standing in for double-SHA256 in the
mining-loop witnesses. -/
def mineHash32 : List Nat → List Nat := fun _ => List.replicate 32 0

theorem mineHash32_digest : ∀ x, (mineHash32 x).length = 32 ∧
    ∀ b ∈ mineHash32 x, b < 256 := by
  intro x
  refine ⟨by simp [mineHash32], ?_⟩
  intro b hb
  simp only [mineHash32, List.mem_replicate] at hb
  omega

theorem mine_block_found_beats_target_witness :
    mine_block mineHash32 (fun _ => none) (List.replicate 80 0) 1
      .incremental 0 1 = .found (List.replicate 76 0 ++ toLE 4 0) 0 ∧
    beNat (mineHash32 (List.replicate 76 0 ++ toLE 4 0)).reverse < 1 :=
  ⟨rfl, mine_block_found_beats_target mineHash32 (fun _ => none)
    (List.replicate 80 0) 1 .incremental 0 1 (List.replicate 76 0 ++ toLE 4 0)
    0 mineHash32_digest (by norm_num) rfl⟩

/-! ## Cancellable search loop (GetBlockTemplate/main.py caller) -/

/-- Outcome type of the cancellable search loop: found and cancelled are
distinct constructors; outOfFuel only bounds this model's evaluation. -/
inductive CancelOutcome where
  | found (header : List Nat) (nonce : Nat)
  | cancelled
  | outOfFuel

/-- Modelled from the spec: the cancellable four-argument `mine_block`
that GetBlockTemplate/main.py imports and calls as
`mine_block(header_hex, modified_target, nonce_mode, stop_event)` is not
under src/ — only this caller is. Spec section 4.6 specifies the loop's
state machine Searching → (Found | Cancelled) with the cancellation
signal checked at least once per nonce batch, and section 5 requires the
result type to make cancelled distinct from found. The model is the
miner.py batch loop with a cancellation check at the top of every batch;
`cancel k` is the stop_event state the loop observes at batch k. -/
def mine_block_cancellable (H : List Nat → List Nat) (cancel : Nat → Bool)
    (refresh : Nat → Option (List Nat)) :
    List Nat → List Nat → Nat → Nat → Nat → CancelOutcome
  | _, _, _, _, 0 => .outOfFuel
  | base76, targetBE, nonce, k, fuel + 1 =>
    if cancel k then .cancelled
    else
      let pre := applyRefresh (refresh k) base76
      match scanBatch H pre targetBE nonce 8 0 with
      | some (header, n) => .found header n
      | none => mine_block_cancellable H cancel refresh pre targetBE
          ((nonce + 8) &&& 0xFFFFFFFF) (k + 1) fuel

/-- Modelled from the spec: entry point of the cancellable loop, decoding
the header and target exactly as miner.py does. -/
def mine_block_with_cancel (H : List Nat → List Nat) (cancel : Nat → Bool)
    (refresh : Nat → Option (List Nat)) (header80 : List Nat) (target : Nat)
    (mode : NonceMode) (r0 fuel : Nat) : CancelOutcome :=
  mine_block_cancellable H cancel refresh (header80.take 76) (toBE 32 target)
    (initNonce mode r0) 0 fuel

/-- The caller contract at GetBlockTemplate/main.py lines 155-184: a None
header (the cancelled outcome) makes the mining cycle continue without
reaching submit_block; only a found outcome proceeds to serialization and
node submission. -/
def submitsBlock : CancelOutcome → Bool
  | .found _ _ => true
  | _ => false

theorem mine_block_cancellable_found (H : List Nat → List Nat)
    (cancel : Nat → Bool) (refresh : Nat → Option (List Nat)) :
    ∀ (fuel : Nat) (base76 targetBE : List Nat) (nonce k : Nat)
      (hdr : List Nat) (n : Nat),
      mine_block_cancellable H cancel refresh base76 targetBE nonce k fuel =
        .found hdr n →
      bytesLt (H hdr).reverse targetBE = true := by
  intro fuel
  induction fuel with
  | zero => intro _ _ _ _ _ _ h; simp [mine_block_cancellable] at h
  | succ f ih =>
    intro base76 targetBE nonce k hdr n h
    simp only [mine_block_cancellable] at h
    split at h
    · exact absurd h (by simp)
    · split at h
      · rename_i hdr2 n2 hp
        simp only [CancelOutcome.found.injEq] at h
        obtain ⟨rfl, rfl⟩ := h
        exact scanBatch_found H _ targetBE nonce 8 0 _ _ hp
      · exact ih _ targetBE _ _ hdr n h

/-- C1: if the cancellation signal is already raised when the loop enters
its first batch, the loop returns the distinct cancelled outcome — not a
found header — and the caller performs no node submission; moreover every
found outcome is submitted and carries a header whose double hash is
strictly below the target, and a cancelled outcome is never submitted, so
cancellation cannot be mistaken for completion and no non-valid header is
ever returned. -/
theorem mine_cancelled_before_first_batch (H : List Nat → List Nat)
    (cancel : Nat → Bool) (refresh : Nat → Option (List Nat))
    (header80 : List Nat) (target : Nat) (mode : NonceMode) (r0 fuel : Nat)
    (hH : ∀ x, (H x).length = 32 ∧ ∀ b ∈ H x, b < 256)
    (ht : target < 2 ^ 256) :
    (cancel 0 = true →
      mine_block_with_cancel H cancel refresh header80 target mode r0
        (fuel + 1) = .cancelled ∧
      submitsBlock (mine_block_with_cancel H cancel refresh header80 target
        mode r0 (fuel + 1)) = false) ∧
    (∀ hdr n,
      mine_block_with_cancel H cancel refresh header80 target mode r0 fuel =
        .found hdr n →
      submitsBlock (.found hdr n) = true ∧ beNat (H hdr).reverse < target) ∧
    (mine_block_with_cancel H cancel refresh header80 target mode r0 fuel =
        .cancelled →
      submitsBlock (mine_block_with_cancel H cancel refresh header80 target
        mode r0 fuel) = false) := by
  refine ⟨?_, ?_, ?_⟩
  · intro hc
    have hval : mine_block_with_cancel H cancel refresh header80 target mode r0
        (fuel + 1) = .cancelled := by
      simp only [mine_block_with_cancel, mine_block_cancellable]
      rw [if_pos hc]
    exact ⟨hval, by rw [hval]; rfl⟩
  · intro hdr n hfound
    refine ⟨rfl, ?_⟩
    have hlt := mine_block_cancellable_found H cancel refresh fuel
      (header80.take 76) (toBE 32 target) (initNonce mode r0) 0 hdr n hfound
    have ht' : target < 256 ^ 32 := by
      have : (256 : Nat) ^ 32 = 2 ^ 256 := by norm_num
      omega
    have hlen : (H hdr).reverse.length = (toBE 32 target).length := by
      rw [List.length_reverse, (hH hdr).1, toBE_length]
    have hdig : ∀ b ∈ (H hdr).reverse, b < 256 := by
      intro b hb
      rw [List.mem_reverse] at hb
      exact (hH hdr).2 b hb
    have := (bytesLt_iff_beNat (H hdr).reverse (toBE 32 target) hlen hdig
      (toBE_lt 32 target)).mp hlt
    rwa [beNat_toBE 32 target ht'] at this
  · intro hcan
    rw [hcan]
    rfl

theorem mine_cancelled_before_first_batch_witness :
    (fun _ : Nat => true) 0 = true ∧
    mine_block_with_cancel mineHash32 (fun _ => true) (fun _ => none)
      (List.replicate 80 0) 1 .incremental 0 (0 + 1) = .cancelled ∧
    submitsBlock (mine_block_with_cancel mineHash32 (fun _ => true)
      (fun _ => none) (List.replicate 80 0) 1 .incremental 0 (0 + 1)) = false :=
  ⟨rfl, (mine_cancelled_before_first_batch mineHash32 (fun _ => true)
    (fun _ => none) (List.replicate 80 0) 1 .incremental 0 0 mineHash32_digest
    (by norm_num)).1 rfl⟩
